import Mathlib

/-!
A verification development for the spaczz fuzzy phrase search-and-optimize
pipeline (Candidate Scanner, Boundary Optimizer, Match Ranker/Deduplicator and
the orchestrating Fuzzy Search Engine).  The repository's files at hand hold
only documentation (README, CHANGELOG, example notebooks); the Python
implementation (the `FuzzySearcher`/`FuzzyMatcher` modules) is absent, so the
definitions below are modelled from the specification's own description of the
algorithm, kept executable so that concrete runs can be checked by `decide`.
-/

namespace Spaczz

/-! ## Character-level similarity scoring

The similarity scorer is an integer "ratio" in [0, 100] derived from the
indel edit distance (as in RapidFuzz's `fuzz.ratio`, which spaczz delegates
to).  For strings `a`, `b` the indel similarity is `2 * lcs(a, b)` where
`lcs` is the length of the longest common subsequence, and the normalized
integer ratio is `200 * lcs(a, b) / (|a| + |b|)` (integer division).  The
recursion is fueled so that it is structural and therefore reducible by the
kernel on concrete inputs. -/

/-- Fueled longest-common-subsequence length of two character lists.
With fuel at least `a.length + b.length` this computes the LCS length. -/
def lcsF : Nat → List Char → List Char → Nat
  | 0, _, _ => 0
  | _ + 1, [], _ => 0
  | _ + 1, _ :: _, [] => 0
  | f + 1, a :: as, b :: bs =>
    if a = b then lcsF f as bs + 1
    else max (lcsF f (a :: as) bs) (lcsF f as (b :: bs))

/-- Longest-common-subsequence length of two character lists. -/
def lcsLen (a b : List Char) : Nat := lcsF (a.length + b.length) a b

/-- Modelled from the spec: the Similarity Scorer's "simple ratio" strategy
("normalized edit-distance-derived similarity over raw character sequences",
an integer in [0, 100]; "no strategy may throw for empty input — it returns
0").  The Python implementation of the scorer is not in the repository's
files, so this follows the spec's description, using the indel-distance
derived ratio `200 * lcs / (|a| + |b|)`. -/
def simpleScore (a b : String) : Nat :=
  if a.data.length = 0 ∨ b.data.length = 0 then 0
  else 200 * lcsLen a.data b.data / (a.data.length + b.data.length)

/-- Lower-case a string character by character. -/
def lowerStr (s : String) : String := ⟨s.data.map Char.toLower⟩

/-- Modelled from the spec: case normalization per `ignore_case`
("normalize both sides to lowercase before scoring"). -/
def normTxt (ic : Bool) (s : String) : String := if ic then lowerStr s else s

/-- Modelled from the spec: scoring of two texts under the configured case
normalization ("Case normalization occurs before invocation per
`ignore_case`"). -/
def nscore (ic : Bool) (a b : String) : Nat :=
  simpleScore (normTxt ic a) (normTxt ic b)

/-! ### LCS lemmas -/

theorem lcsF_le_left : ∀ (f : Nat) (a b : List Char), lcsF f a b ≤ a.length := by
  intro f
  induction f with
  | zero => intro a b; simp [lcsF]
  | succ f ih =>
    intro a b
    match a, b with
    | [], _ => simp [lcsF]
    | _ :: _, [] => simp [lcsF]
    | x :: xs, y :: ys =>
      simp only [lcsF]
      by_cases h : x = y
      · simp only [if_pos h, List.length_cons]
        exact Nat.succ_le_succ (ih xs ys)
      · simp only [if_neg h, List.length_cons, Nat.max_le]
        constructor
        · exact ih (x :: xs) ys
        · exact Nat.le_trans (ih xs (y :: ys)) (Nat.le_succ _)

theorem lcsF_le_right : ∀ (f : Nat) (a b : List Char), lcsF f a b ≤ b.length := by
  intro f
  induction f with
  | zero => intro a b; simp [lcsF]
  | succ f ih =>
    intro a b
    match a, b with
    | [], _ => simp [lcsF]
    | _ :: _, [] => simp [lcsF]
    | x :: xs, y :: ys =>
      simp only [lcsF]
      by_cases h : x = y
      · simp only [if_pos h, List.length_cons]
        exact Nat.succ_le_succ (ih xs ys)
      · simp only [if_neg h, List.length_cons, Nat.max_le]
        constructor
        · exact Nat.le_trans (ih (x :: xs) ys) (Nat.le_succ _)
        · exact ih xs (y :: ys)

theorem lcsF_cons_cons (f : Nat) (x y : Char) (xs ys : List Char) :
    lcsF (f + 1) (x :: xs) (y :: ys) =
      if x = y then lcsF f xs ys + 1
      else max (lcsF f (x :: xs) ys) (lcsF f xs (y :: ys)) := rfl

theorem lcsF_self : ∀ (f : Nat) (a : List Char), a.length ≤ f → lcsF f a a = a.length := by
  intro f
  induction f with
  | zero =>
    intro a h
    have : a = [] := List.length_eq_zero.mp (Nat.le_zero.mp h)
    subst this
    simp [lcsF]
  | succ f ih =>
    intro a h
    match a with
    | [] => simp [lcsF]
    | x :: xs =>
      rw [lcsF_cons_cons, if_pos rfl, ih xs (by simpa using Nat.le_of_succ_le_succ h)]
      simp

theorem lcsF_full_eq :
    ∀ (f : Nat) (a b : List Char),
      lcsF f a b = a.length → lcsF f a b = b.length → a = b := by
  intro f
  induction f with
  | zero =>
    intro a b h1 h2
    simp only [lcsF] at h1 h2
    match a, b, h1, h2 with
    | [], [], _, _ => rfl
  | succ f ih =>
    intro a b h1 h2
    match a, b with
    | [], [] => rfl
    | [], y :: ys => simp [lcsF] at h2
    | x :: xs, [] => simp [lcsF] at h1
    | x :: xs, y :: ys =>
      rw [lcsF_cons_cons] at h1 h2
      simp only [List.length_cons] at h1 h2
      by_cases h : x = y
      · subst h
        rw [if_pos rfl] at h1 h2
        have := ih xs ys (by omega) (by omega)
        rw [this]
      · exfalso
        rw [if_neg h] at h1 h2
        have lA : lcsF f (x :: xs) ys ≤ ys.length := lcsF_le_right f _ _
        have lB : lcsF f xs (y :: ys) ≤ xs.length := lcsF_le_left f _ _
        have lC : lcsF f (x :: xs) ys ≤ xs.length + 1 := by
          have := lcsF_le_left f (x :: xs) ys; simpa using this
        have lD : lcsF f xs (y :: ys) ≤ ys.length + 1 := by
          have := lcsF_le_right f xs (y :: ys); simpa using this
        omega

theorem lcsF_nil_left : ∀ (f : Nat) (b : List Char), lcsF f [] b = 0 := by
  intro f b
  cases f <;> simp [lcsF]

theorem lcsF_nil_right : ∀ (f : Nat) (a : List Char), lcsF f a [] = 0 := by
  intro f a
  cases f <;> cases a <;> simp [lcsF]

theorem lcsF_irrel :
    ∀ (f f' : Nat) (a b : List Char),
      a.length + b.length ≤ f → a.length + b.length ≤ f' → lcsF f a b = lcsF f' a b := by
  intro f
  induction f with
  | zero =>
    intro f' a b h _
    have ha : a = [] := List.length_eq_zero.mp (by omega)
    subst ha
    rw [lcsF_nil_left, lcsF_nil_left]
  | succ f ih =>
    intro f' a b h h'
    match a, b with
    | [], _ => rw [lcsF_nil_left, lcsF_nil_left]
    | _ :: _, [] => rw [lcsF_nil_right, lcsF_nil_right]
    | x :: xs, y :: ys =>
      simp only [List.length_cons] at h h'
      match f', h' with
      | f1 + 1, h' =>
        rw [lcsF_cons_cons, lcsF_cons_cons]
        by_cases hxy : x = y
        · rw [if_pos hxy, if_pos hxy, ih f1 xs ys (by omega) (by omega)]
        · rw [if_neg hxy, if_neg hxy,
            ih f1 (x :: xs) ys (by simp; omega) (by simp; omega),
            ih f1 xs (y :: ys) (by simp; omega) (by simp; omega)]

/-- The four one-step comparison facts about `lcsF`, proved jointly:
consing a character onto either side changes the LCS length by at most one,
and never decreases it. -/
theorem lcsF_step (f : Nat) :
    (∀ (x : Char) (xs ys : List Char), xs.length + ys.length + 1 ≤ f →
        lcsF f (x :: xs) ys ≤ lcsF f xs ys + 1) ∧
    (∀ (x : Char) (xs ys : List Char), xs.length + ys.length + 1 ≤ f →
        lcsF f xs ys ≤ lcsF f (x :: xs) ys) ∧
    (∀ (y : Char) (xs ys : List Char), xs.length + ys.length + 1 ≤ f →
        lcsF f xs ys ≤ lcsF f xs (y :: ys)) ∧
    (∀ (y : Char) (xs ys : List Char), xs.length + ys.length + 1 ≤ f →
        lcsF f xs (y :: ys) ≤ lcsF f xs ys + 1) := by
  induction f with
  | zero =>
    refine ⟨?_, ?_, ?_, ?_⟩ <;> (intro c xs ys h; omega)
  | succ f ih =>
    obtain ⟨ihA, ihA', ihB, ihB'⟩ := ih
    refine ⟨?_, ?_, ?_, ?_⟩
    · -- A: cons on the left adds at most one
      intro x xs ys h
      match ys with
      | [] => rw [lcsF_nil_right]; omega
      | y :: yr =>
        simp only [List.length_cons] at h
        rw [lcsF_cons_cons,
          lcsF_irrel (f + 1) f xs (y :: yr) (by simp; omega) (by simp; omega)]
        by_cases hxy : x = y
        · rw [if_pos hxy]
          have := ihB y xs yr (by omega)
          omega
        · rw [if_neg hxy]
          have h1 : lcsF f (x :: xs) yr ≤ lcsF f xs yr + 1 := ihA x xs yr (by omega)
          have h2 : lcsF f xs yr ≤ lcsF f xs (y :: yr) := ihB y xs yr (by omega)
          have h3 : lcsF f xs (y :: yr) ≤ lcsF f xs (y :: yr) + 1 := by omega
          simp only [Nat.max_le]
          omega
    · -- A': cons on the left never decreases
      intro x xs ys h
      match ys with
      | [] => rw [lcsF_nil_right, lcsF_nil_right]
      | y :: yr =>
        simp only [List.length_cons] at h
        rw [lcsF_cons_cons,
          lcsF_irrel (f + 1) f xs (y :: yr) (by simp; omega) (by simp; omega)]
        by_cases hxy : x = y
        · rw [if_pos hxy]
          have := ihB' y xs yr (by omega)
          omega
        · rw [if_neg hxy]
          have : lcsF f xs (y :: yr) ≤ max (lcsF f (x :: xs) yr) (lcsF f xs (y :: yr)) :=
            Nat.le_max_right _ _
          omega
    · -- B: cons on the right never decreases
      intro y xs ys h
      match xs with
      | [] => rw [lcsF_nil_left, lcsF_nil_left]
      | z :: zs =>
        simp only [List.length_cons] at h
        rw [lcsF_cons_cons,
          lcsF_irrel (f + 1) f (z :: zs) ys (by simp; omega) (by simp; omega)]
        by_cases hzy : z = y
        · rw [if_pos hzy]
          have := ihA z zs ys (by omega)
          omega
        · rw [if_neg hzy]
          have : lcsF f (z :: zs) ys ≤ max (lcsF f (z :: zs) ys) (lcsF f zs (y :: ys)) :=
            Nat.le_max_left _ _
          omega
    · -- B': cons on the right adds at most one
      intro y xs ys h
      match xs with
      | [] => rw [lcsF_nil_left, lcsF_nil_left]; omega
      | z :: zs =>
        simp only [List.length_cons] at h
        rw [lcsF_cons_cons,
          lcsF_irrel (f + 1) f (z :: zs) ys (by simp; omega) (by simp; omega)]
        by_cases hzy : z = y
        · rw [if_pos hzy]
          have := ihA' z zs ys (by omega)
          omega
        · rw [if_neg hzy]
          have h1 : lcsF f zs (y :: ys) ≤ lcsF f zs ys + 1 := ihB' y zs ys (by omega)
          have h2 : lcsF f zs ys ≤ lcsF f (z :: zs) ys := ihA' z zs ys (by omega)
          simp only [Nat.max_le]
          omega

/-- Mapping both strings through the same character function (for us:
lower-casing) never decreases the LCS length. -/
theorem lcsF_map_le (g : Char → Char) :
    ∀ (f : Nat) (a b : List Char), a.length + b.length ≤ f →
      lcsF f a b ≤ lcsF f (a.map g) (b.map g) := by
  intro f
  induction f with
  | zero => intro a b h; simp [lcsF]
  | succ f ih =>
    intro a b h
    match a, b with
    | [], _ => rw [lcsF_nil_left]; omega
    | _ :: _, [] => rw [lcsF_nil_right]; omega
    | x :: xs, y :: ys =>
      simp only [List.length_cons] at h
      simp only [List.map_cons]
      rw [lcsF_cons_cons, lcsF_cons_cons]
      by_cases hxy : x = y
      · rw [if_pos hxy, if_pos (by rw [hxy])]
        have := ih xs ys (by omega)
        omega
      · rw [if_neg hxy]
        by_cases hg : g x = g y
        · rw [if_pos hg]
          have c1 : lcsF f (x :: xs) ys ≤ lcsF f ((x :: xs).map g) (ys.map g) :=
            ih (x :: xs) ys (by simp; omega)
          have c1' : lcsF f (g x :: xs.map g) (ys.map g) ≤ lcsF f (xs.map g) (ys.map g) + 1 :=
            (lcsF_step f).1 (g x) (xs.map g) (ys.map g) (by simp; omega)
          have c2 : lcsF f xs (y :: ys) ≤ lcsF f (xs.map g) ((y :: ys).map g) :=
            ih xs (y :: ys) (by simp; omega)
          have c2' : lcsF f (xs.map g) (g y :: ys.map g) ≤ lcsF f (xs.map g) (ys.map g) + 1 :=
            (lcsF_step f).2.2.2 (g y) (xs.map g) (ys.map g) (by simp; omega)
          simp only [List.map_cons] at c1 c2
          simp only [Nat.max_le]
          omega
        · rw [if_neg hg]
          have c1 : lcsF f (x :: xs) ys ≤ lcsF f ((x :: xs).map g) (ys.map g) :=
            ih (x :: xs) ys (by simp; omega)
          have c2 : lcsF f xs (y :: ys) ≤ lcsF f (xs.map g) ((y :: ys).map g) :=
            ih xs (y :: ys) (by simp; omega)
          simp only [List.map_cons] at c1 c2
          simp only [Nat.max_le]
          constructor
          · exact Nat.le_trans c1 (Nat.le_max_left _ _)
          · exact Nat.le_trans c2 (Nat.le_max_right _ _)

theorem lcsLen_le_left (a b : List Char) : lcsLen a b ≤ a.length :=
  lcsF_le_left _ a b

theorem lcsLen_le_right (a b : List Char) : lcsLen a b ≤ b.length :=
  lcsF_le_right _ a b

theorem lcsLen_self (a : List Char) : lcsLen a a = a.length :=
  lcsF_self _ a (by omega)

theorem lcsLen_full (a b : List Char) :
    lcsLen a b = a.length → lcsLen a b = b.length → a = b :=
  lcsF_full_eq _ a b

theorem lcsLen_map_le (g : Char → Char) (a b : List Char) :
    lcsLen a b ≤ lcsLen (a.map g) (b.map g) := by
  have h := lcsF_map_le g (a.length + b.length) a b (Nat.le_refl _)
  simpa [lcsLen, List.length_map] using h

theorem strEq (a b : String) : a.data = b.data → a = b := by
  intro h
  cases a
  cases b
  simp_all

/-! ### Score lemmas -/

theorem simpleScore_le_100 (a b : String) : simpleScore a b ≤ 100 := by
  unfold simpleScore
  by_cases he : a.data.length = 0 ∨ b.data.length = 0
  · rw [if_pos he]; omega
  · rw [if_neg he]
    push_neg at he
    have h1 := lcsLen_le_left a.data b.data
    have h2 := lcsLen_le_right a.data b.data
    have hle : 200 * lcsLen a.data b.data ≤ 100 * (a.data.length + b.data.length) := by
      omega
    have hpos : 0 < a.data.length + b.data.length := by omega
    calc 200 * lcsLen a.data b.data / (a.data.length + b.data.length)
        ≤ 100 * (a.data.length + b.data.length) / (a.data.length + b.data.length) :=
          Nat.div_le_div_right hle
      _ = 100 := Nat.mul_div_cancel 100 hpos

theorem simpleScore_self (a : String) (h : a.data ≠ []) : simpleScore a a = 100 := by
  unfold simpleScore
  have hn : 0 < a.data.length := List.length_pos.mpr h
  rw [if_neg (by omega), lcsLen_self]
  rw [show 200 * a.data.length = 100 * (a.data.length + a.data.length) by ring]
  exact Nat.mul_div_cancel 100 (by omega)

theorem simpleScore_eq_100 (a b : String) (h : simpleScore a b = 100) : a = b := by
  unfold simpleScore at h
  by_cases he : a.data.length = 0 ∨ b.data.length = 0
  · rw [if_pos he] at h; omega
  · rw [if_neg he] at h
    push_neg at he
    have h1 := lcsLen_le_left a.data b.data
    have h2 := lcsLen_le_right a.data b.data
    have hpos : 0 < a.data.length + b.data.length := by omega
    have hge : 100 * (a.data.length + b.data.length) ≤ 200 * lcsLen a.data b.data :=
      (Nat.le_div_iff_mul_le hpos).mp (by omega)
    exact strEq a b (lcsLen_full a.data b.data (by omega) (by omega))

theorem lowerStr_length (s : String) : (lowerStr s).data.length = s.data.length := by
  simp [lowerStr]

theorem normTxt_length (ic : Bool) (s : String) :
    (normTxt ic s).data.length = s.data.length := by
  cases ic <;> simp [normTxt, lowerStr]

theorem nscore_le_100 (ic : Bool) (a b : String) : nscore ic a b ≤ 100 :=
  simpleScore_le_100 _ _

theorem nscore_self (ic : Bool) (a : String) (h : a.data ≠ []) : nscore ic a a = 100 := by
  unfold nscore
  apply simpleScore_self
  intro hc
  have := normTxt_length ic a
  rw [hc] at this
  simp at this
  exact h (List.length_eq_zero.mp this.symm)

theorem nscore_eq_100 (ic : Bool) (a b : String) (h : nscore ic a b = 100) :
    normTxt ic a = normTxt ic b :=
  simpleScore_eq_100 _ _ h

/-- Case-insensitive scoring never scores below case-sensitive scoring. -/
theorem simpleScore_lower_ge (a b : String) :
    simpleScore a b ≤ simpleScore (lowerStr a) (lowerStr b) := by
  unfold simpleScore
  by_cases he : a.data.length = 0 ∨ b.data.length = 0
  · rw [if_pos he]; omega
  · rw [if_neg he, if_neg (by simpa [lowerStr] using he)]
    simp only [lowerStr]
    have hnum : 200 * lcsLen a.data b.data ≤
        200 * lcsLen (a.data.map Char.toLower) (b.data.map Char.toLower) :=
      Nat.mul_le_mul_left 200 (lcsLen_map_le Char.toLower a.data b.data)
    simp only [List.length_map]
    exact Nat.div_le_div_right hnum

/-! ## Token windows and their concatenated text -/

/-- Modelled from the spec: the text of a token window, scored "on
concatenated window text vs. query text"; tokens are joined with a single
separating space (the document is consumed as "an ordered sequence of token
text"). -/
def joinTokens : List String → String
  | [] => ""
  | [t] => t
  | t :: u :: ts => t ++ " " ++ joinTokens (u :: ts)

/-- The text of the document window `[s, e)`. -/
def windowTxt (doc : List String) (s e : Nat) : String :=
  joinTokens ((doc.drop s).take (e - s))

theorem strAppend_data (a b : String) : (a ++ b).data = a.data ++ b.data := rfl

theorem joinTokens_cons_cons (t u : String) (ts : List String) :
    joinTokens (t :: u :: ts) = t ++ " " ++ joinTokens (u :: ts) := rfl

theorem lowerStr_append (a b : String) :
    lowerStr (a ++ b) = lowerStr a ++ lowerStr b := by
  apply strEq
  simp [lowerStr, strAppend_data]

theorem lowerStr_join (ts : List String) :
    lowerStr (joinTokens ts) = joinTokens (ts.map lowerStr) := by
  match ts with
  | [] =>
    apply strEq
    simp [joinTokens, lowerStr]
  | [t] => simp [joinTokens]
  | t :: u :: ts =>
    have ih := lowerStr_join (u :: ts)
    simp only [joinTokens, List.map_cons]
    rw [lowerStr_append, lowerStr_append]
    rw [show lowerStr " " = " " from rfl]
    rw [ih]
    simp [joinTokens]

theorem normTxt_join (ic : Bool) (ts : List String) :
    normTxt ic (joinTokens ts) = joinTokens (ts.map (normTxt ic)) := by
  cases ic
  · have h : List.map (normTxt false) ts = ts := by
      induction ts with
      | nil => rfl
      | cons t ts ih => simp [normTxt, ih]
    rw [h]
    rfl
  · have h : List.map (normTxt true) ts = List.map lowerStr ts := by
      induction ts with
      | nil => rfl
      | cons t ts ih => simp [normTxt, ih]
    rw [h]
    exact lowerStr_join ts

/-- Length of joined text: character lengths plus one separator between
consecutive tokens. -/
theorem joinTokens_length (ts : List String) (h : ts ≠ []) :
    (joinTokens ts).data.length + 1 =
      (ts.map (fun t => t.data.length)).sum + ts.length := by
  match ts with
  | [t] => simp [joinTokens]
  | t :: u :: ts =>
    have ih := joinTokens_length (u :: ts) (by simp)
    have hsp : (" " : String).data.length = 1 := rfl
    rw [joinTokens_cons_cons]
    simp only [strAppend_data, List.length_append, List.map_cons,
      List.sum_cons, List.length_cons, List.length_nil] at ih ⊢
    omega

/-! ## Data model of the search pipeline -/

/-- A Candidate: a token window `[s, e)` of the document and its coarse-scan
score `r` ("a (start index, end index, coarse ratio) triple"). -/
structure Candidate where
  s : Nat
  e : Nat
  r : Nat
deriving DecidableEq

/-- A Match: a token window `[s, e)` of the document and its final score `r`.
The query id / pattern text live one level up, on the orchestrator's rules. -/
structure FMatch where
  s : Nat
  e : Nat
  r : Nat
deriving DecidableEq

/-- Modelled from the spec: the recognized per-query configuration options of
`MatchConfig` (the Python config handling is not in the repository's files).
`flex` is kept raw (possibly negative or over-long) as configured; it is
clamped at registration time. -/
structure RawConfig where
  ignore_case : Bool
  min_r1 : Nat
  min_r2 : Nat
  flex : Int
  thresh : Nat
deriving DecidableEq

/-- Modelled from the spec: flex clamping at registration ("`flex` ... maximum
boundary shift distance, clamped to [0, query length] with a corrective
warning if out of range"); returns the effective flex and whether a warning
was recorded.  The Python registration code is not in the repository's
files. -/
def calcFlex (raw : Int) (len : Nat) : Nat × Bool :=
  if raw < 0 then (0, true)
  else if (len : Int) < raw then (len, true)
  else (raw.toNat, false)

/-- Modelled from the spec and README: the effective (min_r1, min_r2)
thresholds.  "If `flex == 0`, `min_r1` will be overwritten by `min_r2`"
(README); otherwise `min_r1 > min_r2` is corrected by swapping, with a
warning ("corrected by clamping/swapping with a recorded warning"). -/
def effThresholds (m1 m2 flexEff : Nat) : Nat × Nat :=
  if flexEff = 0 then (m2, m2)
  else if m2 < m1 then (m2, m1) else (m1, m2)

/-! ## Candidate Scanner -/

/-- Modelled from the spec: the Candidate Scanner.  "Given a query of length
L tokens and a document of length N tokens, produce all windows `[i, i+L)`
for `i` in `[0, N-L]` whose coarse score (scored on concatenated window text
vs. query text ...) is ≥ `min_r1`".  The Python `_scan_doc` is not in the
repository's files. -/
def scanDoc (ic : Bool) (minr1 : Nat) (query doc : List String) : List Candidate :=
  let L := query.length
  if L = 0 ∨ doc.length < L then []
  else
    (List.range (doc.length - L + 1)).filterMap fun i =>
      let r := nscore ic (joinTokens query) (windowTxt doc i (i + L))
      if minr1 ≤ r then some ⟨i, i + L, r⟩ else none

/-! ## Boundary Optimizer -/

/-- One boundary-shift combination tried by the optimizer: the shifted window
`[s, e)`, its full-strategy score `r`, and the total shift `|ds| + |de|`
from the original window. -/
structure Trial where
  s : Nat
  e : Nat
  r : Nat
  shift : Nat
deriving DecidableEq

/-- All start (resp. end) positions within `±flex` of `c`, clamped at 0. -/
def around (c flex : Nat) : List Nat :=
  List.range' (c - flex) (c + flex + 1 - (c - flex))

/-- Build the trial of window `[ns, ne)` for a candidate whose original
window is `[os, oe)`. -/
def mkTrial (ic : Bool) (query doc : List String) (os oe ns ne : Nat) : Trial :=
  ⟨ns, ne, nscore ic (joinTokens query) (windowTxt doc ns ne),
    Nat.dist ns os + Nat.dist ne oe⟩

/-- Modelled from the spec: the optimizer's grid, "the full grid of
`(start + ds, end + de)` for `ds, de` in `[-flex, flex]`, excluding
degenerate windows (length ≤ 0)" and "never leaving `[0, N]`", each rescored
with the full strategy. -/
def gridTrials (ic : Bool) (query doc : List String) (flex : Nat) (c : Candidate) :
    List Trial :=
  (around c.s flex).flatMap fun ns =>
    (around c.e flex).filterMap fun ne =>
      if ns < ne ∧ ne ≤ doc.length then some (mkTrial ic query doc c.s c.e ns ne)
      else none

/-- Modelled from the spec: the optimizer's strict preference between trials
("keep the single best-scoring combination. Tie-break: prefer the combination
closest to the original window (smallest total `|ds| + |de|`); if still tied,
prefer the longer window"). -/
def preferT (a b : Trial) : Prop :=
  b.r < a.r ∨ (a.r = b.r ∧ (a.shift < b.shift ∨
    (a.shift = b.shift ∧ b.e - b.s < a.e - a.s)))

instance (a b : Trial) : Decidable (preferT a b) := by
  unfold preferT
  infer_instance

/-- Keep the single best trial: fold over the grid, replacing the incumbent
only on strict preference (so earlier-generated trials win residual ties). -/
def pickBest (seed : Trial) (l : List Trial) : Trial :=
  l.foldl (fun best t => if preferT t best then t else best) seed

/-- The optimizer's chosen trial for a candidate: the best over the original
window (the seed, shift 0) and the whole grid. -/
def bestTrial (ic : Bool) (query doc : List String) (flex : Nat) (c : Candidate) :
    Trial :=
  pickBest (mkTrial ic query doc c.s c.e c.s c.e) (gridTrials ic query doc flex c)

/-- Modelled from the spec: the Boundary Optimizer on one Candidate.
"1. If the Candidate's coarse ratio ≥ `thresh`, skip optimization — accept the
Candidate's window and score as-is. 2. Otherwise, explore boundary-shift
combinations ... and keep the single best-scoring combination. ... 3. Reject
the optimized result if its best score is below `min_r2`; otherwise emit a
Match."  The Python `_adjust_left_right_positions` is not in the repository's
files. -/
def optimizeCand (ic : Bool) (minr2 thresh : Nat) (query doc : List String)
    (flex : Nat) (c : Candidate) : Option FMatch :=
  if thresh ≤ c.r then some ⟨c.s, c.e, c.r⟩
  else if minr2 ≤ (bestTrial ic query doc flex c).r then
    some ⟨(bestTrial ic query doc flex c).s, (bestTrial ic query doc flex c).e,
      (bestTrial ic query doc flex c).r⟩
  else none

/-! ## Match Ranker / Deduplicator -/

/-- Modelled from the spec: the ranking order of the Match Ranker — "(1)
ascending start index, (2) descending window length, (3) descending ratio"
(for equal starts, descending length is descending end). -/
def rankLE (a b : FMatch) : Prop :=
  a.s < b.s ∨ (a.s = b.s ∧ (b.e < a.e ∨ (a.e = b.e ∧ b.r ≤ a.r)))

instance (a b : FMatch) : Decidable (rankLE a b) := by
  unfold rankLE
  infer_instance

instance : IsTotal FMatch rankLE :=
  ⟨by intro a b; unfold rankLE; omega⟩

instance : IsTrans FMatch rankLE :=
  ⟨by intro a b c; unfold rankLE; omega⟩

/-- `a` subsumes `b`: the token range of `b` lies inside that of `a`. -/
def subsumes (a b : FMatch) : Prop := a.s ≤ b.s ∧ b.e ≤ a.e

instance (a b : FMatch) : Decidable (subsumes a b) := by
  unfold subsumes
  infer_instance

/-- Walk the rank-sorted list, keeping a match unless a previously kept
match fully subsumes its token range. -/
def dedupGo (kept : List FMatch) : List FMatch → List FMatch
  | [] => []
  | m :: ms =>
    if ∃ k ∈ kept, subsumes k m then dedupGo kept ms
    else m :: dedupGo (m :: kept) ms

/-- Modelled from the spec: the Match Ranker/Deduplicator — "sort by: (1)
ascending start index, (2) descending window length, (3) descending ratio,
and remove matches whose token range is fully subsumed by an earlier (by this
ordering) match from the same query".  The Python
`_filter_overlapping_matches` is not in the repository's files. -/
def rankMatches (ms : List FMatch) : List FMatch :=
  dedupGo [] (List.insertionSort rankLE ms)

/-! ## Fuzzy Search Engine (orchestrator) -/

/-- Modelled from the spec: one query's full search pass, Scanner → Optimizer
→ Ranker, with registration-time configuration correction (flex clamping,
threshold correction) applied first; an empty query returns an empty Match
sequence ("Input errors (empty document, empty query): return an empty Match
sequence; not an exception").  The Python `FuzzySearcher.match` is not in the
repository's files. -/
def searchQuery (cfg : RawConfig) (query doc : List String) : List FMatch :=
  if query = [] then []
  else
    let flexEff := (calcFlex cfg.flex query.length).1
    let ts := effThresholds cfg.min_r1 cfg.min_r2 flexEff
    let cands := scanDoc cfg.ignore_case ts.1 query doc
    rankMatches
      (cands.filterMap (optimizeCand cfg.ignore_case ts.2 cfg.thresh query doc flexEff))

/-- A registered rule: a label, the query's token sequence, and its
per-query configuration. -/
structure Rule where
  label : String
  pattern : List String
  cfg : RawConfig

/-- Modelled from the spec: the matcher-level contract — run every registered
query against the document and concatenate the per-query ranked results
("runs Scanner → Optimizer → Ranker for every registered query against the
document, concatenates results preserving per-query ranking").  The Python
`FuzzyMatcher.__call__` is not in the repository's files. -/
def matchDoc (rules : List Rule) (doc : List String) : List (String × FMatch) :=
  rules.flatMap fun r => (searchQuery r.cfg r.pattern doc).map fun m => (r.label, m)

/-! ## Lemmas about the optimizer's selection -/

theorem preferT_irrefl (a : Trial) : ¬ preferT a a := by
  unfold preferT
  omega

theorem preferT_trans {a b c : Trial} : preferT a b → preferT b c → preferT a c := by
  unfold preferT
  omega

theorem notPreferT_trans {a b c : Trial} :
    ¬ preferT a b → ¬ preferT b c → ¬ preferT a c := by
  unfold preferT
  omega

theorem pickBest_cons (seed h : Trial) (l : List Trial) :
    pickBest seed (h :: l) = pickBest (if preferT h seed then h else seed) l := rfl

/-- No trial of the list (nor the seed) is strictly preferred to the
`pickBest` result. -/
theorem pickBest_spec :
    ∀ (l : List Trial) (seed t : Trial), t = seed ∨ t ∈ l →
      ¬ preferT t (pickBest seed l) := by
  intro l
  induction l with
  | nil =>
    intro seed t ht
    rcases ht with hts | hmem
    · subst hts; exact preferT_irrefl _
    · exact absurd hmem (List.not_mem_nil t)
  | cons h tl ih =>
    intro seed t ht
    rw [pickBest_cons]
    by_cases hp : preferT h seed
    · rw [if_pos hp]
      rcases ht with hts | htl
      · subst hts
        intro hc
        exact ih h h (Or.inl rfl) (preferT_trans hp hc)
      · rcases List.mem_cons.mp htl with h1 | h1
        · rw [h1]; exact ih h h (Or.inl rfl)
        · exact ih h t (Or.inr h1)
    · rw [if_neg hp]
      rcases ht with hts | htl
      · rw [hts]; exact ih seed seed (Or.inl rfl)
      · rcases List.mem_cons.mp htl with h1 | h1
        · subst h1
          exact notPreferT_trans hp (ih seed seed (Or.inl rfl))
        · exact ih seed t (Or.inr h1)

/-- The `pickBest` result is the seed or one of the listed trials. -/
theorem pickBest_mem :
    ∀ (l : List Trial) (seed : Trial), pickBest seed l = seed ∨ pickBest seed l ∈ l := by
  intro l
  induction l with
  | nil => intro seed; exact Or.inl rfl
  | cons h tl ih =>
    intro seed
    rw [pickBest_cons]
    by_cases hp : preferT h seed
    · rw [if_pos hp]
      rcases ih h with h1 | h1
      · exact Or.inr (by rw [h1]; exact List.mem_cons_self h tl)
      · exact Or.inr (List.mem_cons_of_mem h h1)
    · rw [if_neg hp]
      rcases ih seed with h1 | h1
      · exact Or.inl h1
      · exact Or.inr (List.mem_cons_of_mem h h1)

theorem around_mem_iff (c flex x : Nat) : x ∈ around c flex ↔ c - flex ≤ x ∧ x ≤ c + flex := by
  unfold around
  rw [List.mem_range'_1]
  omega

theorem gridTrials_elim {ic : Bool} {query doc : List String} {flex : Nat}
    {c : Candidate} {t : Trial} (h : t ∈ gridTrials ic query doc flex c) :
    ∃ ns ne, t = mkTrial ic query doc c.s c.e ns ne ∧ ns < ne ∧ ne ≤ doc.length ∧
      ns ∈ around c.s flex ∧ ne ∈ around c.e flex := by
  unfold gridTrials at h
  rcases List.mem_flatMap.mp h with ⟨ns, hns, h2⟩
  rcases List.mem_filterMap.mp h2 with ⟨ne, hne, h3⟩
  by_cases hc : ns < ne ∧ ne ≤ doc.length
  · rw [if_pos hc] at h3
    exact ⟨ns, ne, (Option.some_inj.mp h3).symm, hc.1, hc.2, hns, hne⟩
  · rw [if_neg hc] at h3
    exact absurd h3 (Option.noConfusion)

theorem gridTrials_intro {ic : Bool} {query doc : List String} {flex : Nat}
    {c : Candidate} {ns ne : Nat} (hns : ns ∈ around c.s flex)
    (hne : ne ∈ around c.e flex) (hlt : ns < ne) (hN : ne ≤ doc.length) :
    mkTrial ic query doc c.s c.e ns ne ∈ gridTrials ic query doc flex c := by
  unfold gridTrials
  refine List.mem_flatMap.mpr ⟨ns, hns, ?_⟩
  refine List.mem_filterMap.mpr ⟨ne, hne, ?_⟩
  rw [if_pos ⟨hlt, hN⟩]

/-- The window of the optimizer's chosen trial stays inside the document and
is non-degenerate, provided the candidate's own window is. -/
theorem bestTrial_valid (ic : Bool) (query doc : List String) (flex : Nat)
    (c : Candidate) (h1 : c.s < c.e) (h2 : c.e ≤ doc.length) :
    (bestTrial ic query doc flex c).s < (bestTrial ic query doc flex c).e ∧
      (bestTrial ic query doc flex c).e ≤ doc.length := by
  unfold bestTrial
  rcases pickBest_mem (gridTrials ic query doc flex c)
      (mkTrial ic query doc c.s c.e c.s c.e) with h | h
  · rw [h]; exact ⟨h1, h2⟩
  · rcases gridTrials_elim h with ⟨ns, ne, ht, hlt, hN, _, _⟩
    rw [ht]
    exact ⟨hlt, hN⟩

/-- The score recorded on any trial is the full-strategy score of its
window. -/
theorem trial_r_eq (ic : Bool) (query doc : List String) (os oe ns ne : Nat) :
    (mkTrial ic query doc os oe ns ne).r =
      nscore ic (joinTokens query) (windowTxt doc ns ne) := rfl

/-- The optimizer's fast path: a candidate whose coarse ratio meets `thresh`
is accepted as-is. -/
theorem optimizeCand_fast {ic : Bool} {minr2 thresh : Nat} {query doc : List String}
    {flex : Nat} {c : Candidate} (h : thresh ≤ c.r) :
    optimizeCand ic minr2 thresh query doc flex c = some ⟨c.s, c.e, c.r⟩ := by
  unfold optimizeCand
  rw [if_pos h]

/-- Case analysis on a successful optimizer run. -/
theorem optimizeCand_cases {ic : Bool} {minr2 thresh : Nat} {query doc : List String}
    {flex : Nat} {c : Candidate} {m : FMatch}
    (h : optimizeCand ic minr2 thresh query doc flex c = some m) :
    (thresh ≤ c.r ∧ m = ⟨c.s, c.e, c.r⟩) ∨
      (c.r < thresh ∧ minr2 ≤ (bestTrial ic query doc flex c).r ∧
        m = ⟨(bestTrial ic query doc flex c).s, (bestTrial ic query doc flex c).e,
          (bestTrial ic query doc flex c).r⟩) := by
  unfold optimizeCand at h
  by_cases h1 : thresh ≤ c.r
  · rw [if_pos h1] at h
    exact Or.inl ⟨h1, (Option.some_inj.mp h).symm⟩
  · rw [if_neg h1] at h
    by_cases h2 : minr2 ≤ (bestTrial ic query doc flex c).r
    · rw [if_pos h2] at h
      exact Or.inr ⟨by omega, h2, (Option.some_inj.mp h).symm⟩
    · rw [if_neg h2] at h
      exact absurd h (Option.noConfusion)

/-! ## Lemmas about the Match Ranker / Deduplicator -/

theorem rankLE_refl (a : FMatch) : rankLE a a := by
  unfold rankLE
  omega

theorem rankLE_antisymm {a b : FMatch} (h1 : rankLE a b) (h2 : rankLE b a) : a = b := by
  cases a
  cases b
  unfold rankLE at h1 h2
  simp_all only [FMatch.mk.injEq]
  omega

theorem rankLE_total (a b : FMatch) : rankLE a b ∨ rankLE b a := by
  unfold rankLE
  omega

theorem subsumes_trans {a b c : FMatch} (h1 : subsumes a b) (h2 : subsumes b c) :
    subsumes a c := by
  unfold subsumes at *
  omega

theorem dedupGo_sublist : ∀ (l : List FMatch) (kept : List FMatch),
    (dedupGo kept l).Sublist l := by
  intro l
  induction l with
  | nil => intro kept; exact List.Sublist.refl []
  | cons m ms ih =>
    intro kept
    unfold dedupGo
    by_cases hex : ∃ k ∈ kept, subsumes k m
    · rw [if_pos hex]
      exact List.Sublist.cons m (ih kept)
    · rw [if_neg hex]
      exact List.Sublist.cons₂ m (ih (m :: kept))

theorem dedupGo_mem {l kept : List FMatch} {m : FMatch} (h : m ∈ dedupGo kept l) :
    m ∈ l :=
  (dedupGo_sublist l kept).subset h

/-- Once some kept match subsumes `m`, no copy of `m` survives. -/
theorem dedupGo_not_mem : ∀ (l kept : List FMatch) (m : FMatch),
    (∃ k ∈ kept, subsumes k m) → m ∉ dedupGo kept l := by
  intro l
  induction l with
  | nil => intro kept m _; exact List.not_mem_nil m
  | cons h tl ih =>
    intro kept m hk
    unfold dedupGo
    by_cases hex : ∃ k ∈ kept, subsumes k h
    · rw [if_pos hex]
      exact ih kept m hk
    · rw [if_neg hex]
      intro hmem
      rcases List.mem_cons.mp hmem with h1 | h1
      · rw [h1] at hk
        exact hex hk
      · rcases hk with ⟨k, hkk, hks⟩
        exact ih (h :: kept) m ⟨k, List.mem_cons_of_mem h hkk, hks⟩ h1

/-- Soundness of the dedup walk over a rank-sorted list: every survivor is
rank-no-later than any of its subsumers in the list. -/
theorem dedupGo_earlier : ∀ (l kept : List FMatch) (m : FMatch),
    l.Pairwise rankLE → m ∈ dedupGo kept l →
    ∀ k ∈ l, subsumes k m → rankLE m k := by
  intro l
  induction l with
  | nil => intro kept m _ _ k hk; exact absurd hk (List.not_mem_nil k)
  | cons h tl ih =>
    intro kept m hp hm k hk hsub
    rw [List.pairwise_cons] at hp
    unfold dedupGo at hm
    by_cases hex : ∃ j ∈ kept, subsumes j h
    · rw [if_pos hex] at hm
      rcases List.mem_cons.mp hk with h1 | h1
      · rcases hex with ⟨j, hjk, hjs⟩
        rw [h1] at hsub
        exact absurd hm (dedupGo_not_mem tl kept m ⟨j, hjk, subsumes_trans hjs hsub⟩)
      · exact ih kept m hp.2 hm k h1 hsub
    · rw [if_neg hex] at hm
      rcases List.mem_cons.mp hm with h1 | h1
      · rcases List.mem_cons.mp hk with h2 | h2
        · rw [h1, h2]; exact rankLE_refl h
        · rw [h1]; exact hp.1 k h2
      · rcases List.mem_cons.mp hk with h2 | h2
        · rw [h2] at hsub
          exact absurd h1
            (dedupGo_not_mem tl (h :: kept) m ⟨h, List.mem_cons_self h kept, hsub⟩)
        · exact ih (h :: kept) m hp.2 h1 k h2 hsub

/-- Completeness of the dedup walk: a listed match with no subsumer among the
kept ones and no rank-earlier subsumer in the list survives. -/
theorem dedupGo_complete : ∀ (l kept : List FMatch) (m : FMatch),
    l.Pairwise rankLE → m ∈ l →
    (∀ k ∈ kept, ¬ subsumes k m) →
    (∀ k ∈ l, subsumes k m → rankLE m k) →
    m ∈ dedupGo kept l := by
  intro l
  induction l with
  | nil => intro kept m _ hm _ _; exact absurd hm (List.not_mem_nil m)
  | cons h tl ih =>
    intro kept m hp hm hkept hearl
    rw [List.pairwise_cons] at hp
    unfold dedupGo
    by_cases hex : ∃ j ∈ kept, subsumes j h
    · rw [if_pos hex]
      rcases List.mem_cons.mp hm with h1 | h1
      · exfalso
        rcases hex with ⟨j, hjk, hjs⟩
        rw [h1] at hkept
        exact hkept j hjk hjs
      · exact ih kept m hp.2 h1 hkept fun k hk => hearl k (List.mem_cons_of_mem h hk)
    · rw [if_neg hex]
      by_cases hmh : m = h
      · rw [hmh]; exact List.mem_cons_self h _
      · have h1 : m ∈ tl := by
          rcases List.mem_cons.mp hm with h2 | h2
          · exact absurd h2 hmh
          · exact h2
        refine List.mem_cons_of_mem h (ih (h :: kept) m hp.2 h1 ?_ ?_)
        · intro k hk hks
          rcases List.mem_cons.mp hk with h2 | h2
          · rw [h2] at hks
            have hmLEh : rankLE m h := hearl h (List.mem_cons_self h tl) hks
            have hhLEm : rankLE h m := hp.1 m h1
            exact hmh (rankLE_antisymm hmLEh hhLEm)
          · exact hkept k h2 hks
        · intro k hk
          exact hearl k (List.mem_cons_of_mem h hk)

/-- The ranked, deduplicated output is ordered by the ranking key. -/
theorem rankMatches_pairwise (ms : List FMatch) : (rankMatches ms).Pairwise rankLE := by
  unfold rankMatches
  exact List.Pairwise.sublist
    (dedupGo_sublist (List.insertionSort rankLE ms) [])
    (List.sorted_insertionSort rankLE ms)

/-- Full characterization of the Ranker/Deduplicator's output: exactly the
input matches with no strictly rank-earlier subsumer. -/
theorem rankMatches_mem_iff (ms : List FMatch) (m : FMatch) :
    m ∈ rankMatches ms ↔ m ∈ ms ∧ ∀ k ∈ ms, subsumes k m → rankLE m k := by
  unfold rankMatches
  have hperm := List.perm_insertionSort rankLE ms
  have hsorted : (List.insertionSort rankLE ms).Pairwise rankLE :=
    List.sorted_insertionSort rankLE ms
  constructor
  · intro h
    refine ⟨hperm.mem_iff.mp (dedupGo_mem h), ?_⟩
    intro k hk hs
    exact dedupGo_earlier _ [] m hsorted h k (hperm.mem_iff.mpr hk) hs
  · rintro ⟨hm, hearl⟩
    refine dedupGo_complete _ [] m hsorted (hperm.mem_iff.mpr hm) ?_ ?_
    · intro k hk
      exact absurd hk (List.not_mem_nil k)
    · intro k hk hs
      exact hearl k (hperm.mem_iff.mp hk) hs

/-! ## Lemmas about the Candidate Scanner -/

theorem scanDoc_mem_elim {ic : Bool} {minr1 : Nat} {query doc : List String}
    {c : Candidate} (h : c ∈ scanDoc ic minr1 query doc) :
    ∃ i, c = ⟨i, i + query.length,
        nscore ic (joinTokens query) (windowTxt doc i (i + query.length))⟩ ∧
      0 < query.length ∧ i + query.length ≤ doc.length ∧ minr1 ≤ c.r := by
  unfold scanDoc at h
  by_cases hg : query.length = 0 ∨ doc.length < query.length
  · rw [if_pos hg] at h
    exact absurd h (List.not_mem_nil c)
  · rw [if_neg hg] at h
    push_neg at hg
    rcases List.mem_filterMap.mp h with ⟨i, hi, hsome⟩
    rw [List.mem_range] at hi
    by_cases hr : minr1 ≤ nscore ic (joinTokens query) (windowTxt doc i (i + query.length))
    · rw [if_pos hr] at hsome
      have hc := Option.some_inj.mp hsome
      refine ⟨i, hc.symm, by omega, by omega, ?_⟩
      rw [← hc]
      exact hr
    · rw [if_neg hr] at hsome
      exact absurd hsome (Option.noConfusion)

theorem scanDoc_mem_intro (ic : Bool) (minr1 : Nat) (query doc : List String)
    (i : Nat) (hq : 0 < query.length) (hle : i + query.length ≤ doc.length)
    (hr : minr1 ≤ nscore ic (joinTokens query) (windowTxt doc i (i + query.length))) :
    (⟨i, i + query.length,
        nscore ic (joinTokens query) (windowTxt doc i (i + query.length))⟩ : Candidate) ∈
      scanDoc ic minr1 query doc := by
  unfold scanDoc
  rw [if_neg (by omega)]
  refine List.mem_filterMap.mpr ⟨i, ?_, ?_⟩
  · rw [List.mem_range]
    omega
  · rw [if_pos hr]

/-! ## Lemmas about the effective thresholds and flex clamping -/

theorem effThresholds_snd_ge (m1 m2 f : Nat) : m2 ≤ (effThresholds m1 m2 f).2 := by
  unfold effThresholds
  split_ifs <;> omega

theorem effThresholds_fst_le_100 {m1 m2 : Nat} (f : Nat) (h1 : m1 ≤ 100)
    (h2 : m2 ≤ 100) : (effThresholds m1 m2 f).1 ≤ 100 := by
  unfold effThresholds
  split_ifs <;> omega

theorem effThresholds_zero (m1 m2 : Nat) : effThresholds m1 m2 0 = (m2, m2) := by
  unfold effThresholds
  rw [if_pos rfl]

theorem calcFlex_le (raw : Int) (len : Nat) : (calcFlex raw len).1 ≤ len := by
  unfold calcFlex
  split_ifs with h1 h2
  · exact Nat.zero_le _
  · exact Nat.le_refl _
  · omega

theorem calcFlex_clamp (raw : Int) (len : Nat) :
    ((calcFlex raw len).1 : Int) = max 0 (min raw (len : Int)) := by
  unfold calcFlex
  split_ifs with h1 h2 <;> simp <;> omega

theorem calcFlex_warn (raw : Int) (len : Nat) :
    (calcFlex raw len).2 = (decide (raw < 0) || decide ((len : Int) < raw)) := by
  unfold calcFlex
  split_ifs with h1 h2 <;> simp_all

theorem calcFlex_idem (raw : Int) (len : Nat) :
    calcFlex ((calcFlex raw len).1 : Int) len = ((calcFlex raw len).1, false) := by
  unfold calcFlex
  split_ifs with h1 h2 <;> simp_all <;> omega

/-! ## Lemmas about the orchestrated search -/

theorem searchQuery_eq {cfg : RawConfig} {query doc : List String} (hq : query ≠ []) :
    searchQuery cfg query doc =
      rankMatches
        ((scanDoc cfg.ignore_case
            (effThresholds cfg.min_r1 cfg.min_r2 (calcFlex cfg.flex query.length).1).1
            query doc).filterMap
          (optimizeCand cfg.ignore_case
            (effThresholds cfg.min_r1 cfg.min_r2 (calcFlex cfg.flex query.length).1).2
            cfg.thresh query doc (calcFlex cfg.flex query.length).1)) := by
  unfold searchQuery
  rw [if_neg hq]

/-- The pipeline-wide Match invariant: windows are non-degenerate and inside
the document; and whenever `thresh` is at least `min_r2` (as with the default
`thresh = 100`), every emitted ratio meets `min_r2`. -/
theorem searchQuery_bounds {cfg : RawConfig} {query doc : List String} {m : FMatch}
    (hm : m ∈ searchQuery cfg query doc) :
    (m.s < m.e ∧ m.e ≤ doc.length) ∧ (cfg.min_r2 ≤ cfg.thresh → cfg.min_r2 ≤ m.r) := by
  by_cases hq : query = []
  · unfold searchQuery at hm
    rw [if_pos hq] at hm
    exact absurd hm (List.not_mem_nil m)
  · rw [searchQuery_eq hq] at hm
    have hraw := ((rankMatches_mem_iff _ m).mp hm).1
    rcases List.mem_filterMap.mp hraw with ⟨c, hc, hopt⟩
    rcases scanDoc_mem_elim hc with ⟨i, hceq, hL, hiN, _⟩
    have hcs : c.s = i := by rw [hceq]
    have hce : c.e = i + query.length := by rw [hceq]
    have hvalid : c.s < c.e ∧ c.e ≤ doc.length := by
      rw [hcs, hce]
      omega
    rcases optimizeCand_cases hopt with ⟨hth, hmeq⟩ | ⟨_, hbest, hmeq⟩
    · constructor
      · rw [hmeq]
        exact hvalid
      · intro hm2
        rw [hmeq]
        show cfg.min_r2 ≤ c.r
        omega
    · have hv := bestTrial_valid cfg.ignore_case query doc
        (calcFlex cfg.flex query.length).1 c hvalid.1 hvalid.2
      constructor
      · rw [hmeq]
        exact hv
      · intro _
        rw [hmeq]
        show cfg.min_r2 ≤ (bestTrial cfg.ignore_case query doc
          (calcFlex cfg.flex query.length).1 c).r
        have := effThresholds_snd_ge cfg.min_r1 cfg.min_r2 (calcFlex cfg.flex query.length).1
        omega

theorem scanDoc_nil_query (ic : Bool) (minr1 : Nat) (doc : List String) :
    scanDoc ic minr1 [] doc = [] := by
  unfold scanDoc
  simp

theorem around_zero (c : Nat) : around c 0 = [c] := by
  unfold around
  have h2 : c + 0 + 1 - (c - 0) = 1 := by omega
  rw [h2]
  rfl

theorem pickBest_self_singleton (t : Trial) : pickBest t [t] = t := by
  rw [pickBest_cons, if_neg (preferT_irrefl t)]
  rfl

/-- With `flex = 0` the optimizer's whole grid is the original window, so a
candidate whose recorded ratio is its window's score and meets `min_r2` is
returned unchanged, whatever `thresh` is. -/
theorem optimizeCand_flex0 {ic : Bool} {minr2 thresh : Nat} {query doc : List String}
    {c : Candidate} (hval : c.s < c.e ∧ c.e ≤ doc.length)
    (hr : c.r = nscore ic (joinTokens query) (windowTxt doc c.s c.e))
    (hm2 : minr2 ≤ c.r) :
    optimizeCand ic minr2 thresh query doc 0 c = some ⟨c.s, c.e, c.r⟩ := by
  unfold optimizeCand
  by_cases hth : thresh ≤ c.r
  · rw [if_pos hth]
  · rw [if_neg hth]
    have hgrid : gridTrials ic query doc 0 c = [mkTrial ic query doc c.s c.e c.s c.e] := by
      unfold gridTrials
      rw [around_zero, around_zero]
      simp only [List.flatMap_cons, List.flatMap_nil, List.filterMap_cons,
        List.filterMap_nil, List.append_nil]
      rw [if_pos ⟨hval.1, hval.2⟩]
    have hbt : bestTrial ic query doc 0 c = mkTrial ic query doc c.s c.e c.s c.e := by
      unfold bestTrial
      rw [hgrid]
      exact pickBest_self_singleton _
    have hreq : (mkTrial ic query doc c.s c.e c.s c.e).r = c.r := by
      rw [trial_r_eq, ← hr]
    rw [hbt, hreq, if_pos hm2]
    rfl

/-- Pointwise-`some` filterMap is a map. -/
theorem filterMapEqMap {α β : Type} (f : α → Option β) (g : α → β) :
    ∀ l : List α, (∀ x ∈ l, f x = some (g x)) → l.filterMap f = l.map g := by
  intro l
  induction l with
  | nil => intro _; rfl
  | cons x xs ih =>
    intro h
    rw [List.filterMap_cons, h x (List.mem_cons_self x xs), List.map_cons,
      ih fun y hy => h y (List.mem_cons_of_mem x hy)]

/-- With effective `flex = 0`, the whole pipeline collapses: `min_r1` is
replaced by `min_r2`, `thresh` plays no role, and the output is the ranked
deduplication of exactly the coarse-scan candidates. -/
theorem searchQuery_flex0 (ic : Bool) (m1 m2 : Nat) (fx : Int) (th : Nat)
    (query doc : List String) (hf : (calcFlex fx query.length).1 = 0) :
    searchQuery ⟨ic, m1, m2, fx, th⟩ query doc =
      rankMatches ((scanDoc ic m2 query doc).map fun c => ⟨c.s, c.e, c.r⟩) := by
  by_cases hq : query = []
  · unfold searchQuery
    rw [if_pos hq, hq, scanDoc_nil_query]
    rfl
  · rw [searchQuery_eq hq]
    simp only [hf, effThresholds_zero]
    congr 1
    apply filterMapEqMap
    intro c hc
    rcases scanDoc_mem_elim hc with ⟨i, hceq, hL, hiN, hm2c⟩
    apply optimizeCand_flex0
    · rw [hceq]
      constructor
      · simp
        omega
      · simp
        omega
    · rw [hceq]
    · exact hm2c

/-! ## Window-text lemmas for the exact-match property -/

/-- The optimizer's chosen trial records precisely its own window's score. -/
theorem bestTrial_r (ic : Bool) (query doc : List String) (flex : Nat) (c : Candidate) :
    (bestTrial ic query doc flex c).r =
      nscore ic (joinTokens query)
        (windowTxt doc (bestTrial ic query doc flex c).s
          (bestTrial ic query doc flex c).e) := by
  rcases pickBest_mem (gridTrials ic query doc flex c)
      (mkTrial ic query doc c.s c.e c.s c.e) with h | h
  · unfold bestTrial
    rw [h]
    rfl
  · rcases gridTrials_elim h with ⟨ns, ne, ht, _, _, _, _⟩
    unfold bestTrial
    rw [ht]
    rfl

theorem windowToks_length (doc : List String) (s e : Nat) (he : e ≤ doc.length) :
    ((doc.drop s).take (e - s)).length = e - s := by
  rw [List.length_take, List.length_drop]
  omega

/-- A window's token list is a contiguous slice of any containing window's
token list. -/
theorem windowToks_slice (doc : List String) (ns i L ne : Nat) (h1 : ns ≤ i)
    (h2 : i + L ≤ ne) :
    (doc.drop i).take L =
      (((doc.drop ns).take (ne - ns)).drop (i - ns)).take L := by
  rw [List.drop_take, List.drop_drop, List.take_take]
  have ha : ns + (i - ns) = i := by omega
  have hb : min L (ne - ns - (i - ns)) = L := by omega
  rw [ha, hb]

/-- Sum of a contiguous slice is at most the sum of the whole list. -/
theorem sum_slice_le (l : List Nat) (d n : Nat) : ((l.drop d).take n).sum ≤ l.sum := by
  have h1 : (l.drop d).take n ++ ((l.drop d).drop n) = l.drop d := List.take_append_drop ..
  have h2 : l.take d ++ l.drop d = l := List.take_append_drop ..
  have h3 : ((l.drop d).take n).sum + ((l.drop d).drop n).sum = (l.drop d).sum := by
    rw [← List.sum_append, h1]
  have h4 : (l.take d).sum + (l.drop d).sum = l.sum := by
    rw [← List.sum_append, h2]
  omega

/-- Strictly containing token windows have strictly longer text (each extra
token contributes at least its separating space). -/
theorem windowTxt_len_lt {doc : List String} {ns i L ne : Nat}
    (h1 : ns ≤ i) (h2 : i + L ≤ ne) (h3 : L < ne - ns) (hL : 0 < L)
    (hN : ne ≤ doc.length) :
    (windowTxt doc i (i + L)).data.length < (windowTxt doc ns ne).data.length := by
  unfold windowTxt
  have hEi : i + L - i = L := by omega
  rw [hEi]
  have hWcnt : ((doc.drop ns).take (ne - ns)).length = ne - ns :=
    windowToks_length doc ns ne hN
  have hEcnt : ((doc.drop i).take L).length = L := by
    have hiL : i + L - i = L := by omega
    have h := windowToks_length doc i (i + L) (by omega)
    rw [hiL] at h
    exact h
  have hWne : (doc.drop ns).take (ne - ns) ≠ [] := by
    intro hc
    rw [hc] at hWcnt
    simp at hWcnt
    omega
  have hEne : (doc.drop i).take L ≠ [] := by
    intro hc
    rw [hc] at hEcnt
    simp at hEcnt
    omega
  have hWlen := joinTokens_length _ hWne
  have hElen := joinTokens_length _ hEne
  rw [hWcnt] at hWlen
  rw [hEcnt] at hElen
  -- the window's character sum dominates the subwindow's
  have hslice := windowToks_slice doc ns i L ne h1 h2
  have hsum :
      (((doc.drop i).take L).map (fun t => t.data.length)).sum ≤
        (((doc.drop ns).take (ne - ns)).map (fun t => t.data.length)).sum := by
    rw [hslice]
    set W := (doc.drop ns).take (ne - ns) with hW
    calc ((((W.drop (i - ns)).take L)).map (fun t => t.data.length)).sum
        = (((W.map (fun t => t.data.length)).drop (i - ns)).take L).sum := by
          rw [List.map_take, List.map_drop]
      _ ≤ (W.map (fun t => t.data.length)).sum := sum_slice_le ..
  omega

theorem normTxt_data_length_eq {ic : Bool} {a b : String}
    (h : normTxt ic a = normTxt ic b) : a.data.length = b.data.length := by
  have ha := normTxt_length ic a
  have hb := normTxt_length ic b
  rw [← ha, ← hb, h]

/-! ## The exact-match property -/

/-- Under exact (normalized) token equality, the window's score is 100. -/
theorem exact_window_score (ic : Bool) (query doc : List String) (i : Nat)
    (hqtxt : (joinTokens query).data ≠ [])
    (heq : ((doc.drop i).take query.length).map (normTxt ic) =
      query.map (normTxt ic)) :
    nscore ic (joinTokens query) (windowTxt doc i (i + query.length)) = 100 := by
  have hwt : normTxt ic (windowTxt doc i (i + query.length)) =
      normTxt ic (joinTokens query) := by
    unfold windowTxt
    have hL : i + query.length - i = query.length := by omega
    rw [hL, normTxt_join, heq, ← normTxt_join]
  unfold nscore
  rw [hwt]
  apply simpleScore_self
  intro hc
  have := normTxt_length ic (joinTokens query)
  rw [hc] at this
  simp at this
  exact hqtxt (List.length_eq_zero.mp this.symm)

/-- The exact-match window survives as a raw optimized match. -/
theorem exact_in_raw (ic : Bool) (m1e m2e th f : Nat) (query doc : List String)
    (i : Nat) (hq : query ≠ []) (hqtxt : (joinTokens query).data ≠ [])
    (hm1e : m1e ≤ 100) (hth : th ≤ 100)
    (hwin : i + query.length ≤ doc.length)
    (heq : ((doc.drop i).take query.length).map (normTxt ic) =
      query.map (normTxt ic)) :
    (⟨i, i + query.length, 100⟩ : FMatch) ∈
      (scanDoc ic m1e query doc).filterMap (optimizeCand ic m2e th query doc f) := by
  have hscore := exact_window_score ic query doc i hqtxt heq
  have hqpos : 0 < query.length := List.length_pos.mpr hq
  have hscan := scanDoc_mem_intro ic m1e query doc i hqpos hwin
    (by rw [hscore]; exact hm1e)
  refine List.mem_filterMap.mpr
    ⟨⟨i, i + query.length,
      nscore ic (joinTokens query) (windowTxt doc i (i + query.length))⟩, hscan, ?_⟩
  have hfast : optimizeCand ic m2e th query doc f
      ⟨i, i + query.length,
        nscore ic (joinTokens query) (windowTxt doc i (i + query.length))⟩ =
      some ⟨i, i + query.length,
        nscore ic (joinTokens query) (windowTxt doc i (i + query.length))⟩ :=
    optimizeCand_fast (by
      show th ≤ nscore ic (joinTokens query) (windowTxt doc i (i + query.length))
      omega)
  rw [hfast, hscore]

/-- Every raw optimized match whose token range subsumes the exact-match
window is that window itself, scored 100 — no raw match strictly contains
it. -/
theorem exact_not_subsumed (ic : Bool) (m1e m2e th f : Nat) (query doc : List String)
    (i : Nat) (hq : query ≠ []) (hqtxt : (joinTokens query).data ≠ [])
    (hwin : i + query.length ≤ doc.length)
    (heq : ((doc.drop i).take query.length).map (normTxt ic) =
      query.map (normTxt ic)) :
    ∀ k ∈ (scanDoc ic m1e query doc).filterMap (optimizeCand ic m2e th query doc f),
      subsumes k ⟨i, i + query.length, 100⟩ →
        rankLE (⟨i, i + query.length, 100⟩ : FMatch) k := by
  have hscore := exact_window_score ic query doc i hqtxt heq
  have hqpos : 0 < query.length := List.length_pos.mpr hq
  intro k hk hsub
  rcases List.mem_filterMap.mp hk with ⟨c, hc, hopt⟩
  rcases scanDoc_mem_elim hc with ⟨j, hceq, _, hjN, _⟩
  have hcs : c.s = j := by rw [hceq]
  have hce : c.e = j + query.length := by rw [hceq]
  have hcr : c.r = nscore ic (joinTokens query) (windowTxt doc j (j + query.length)) := by
    rw [hceq]
  have hks : k.s ≤ i := hsub.1
  have hke : i + query.length ≤ k.e := hsub.2
  rcases optimizeCand_cases hopt with ⟨_, hkeq⟩ | ⟨_, _, hkeq⟩
  · -- fast path: the emitted window is the candidate's length-L window
    have hkj : k.s = j := by rw [hkeq, hcs]
    have hkje : k.e = j + query.length := by rw [hkeq, hce]
    have hji : j = i := by omega
    have hkr : k.r = 100 := by
      rw [hkeq]
      show c.r = 100
      rw [hcr, hji, hscore]
    have : k = (⟨i, i + query.length, 100⟩ : FMatch) := by
      cases k
      simp_all
    rw [this]
    exact rankLE_refl _
  · -- optimizer path: the chosen trial cannot strictly contain the window
    have hvalid : c.s < c.e ∧ c.e ≤ doc.length := by
      rw [hcs, hce]
      omega
    have hbs : k.s = (bestTrial ic query doc f c).s := by rw [hkeq]
    have hbe : k.e = (bestTrial ic query doc f c).e := by rw [hkeq]
    have hbr : k.r = (bestTrial ic query doc f c).r := by rw [hkeq]
    by_cases hexact : k.s = i ∧ k.e = i + query.length
    · -- same window: its score is the window's score, 100
      have hkr : k.r = 100 := by
        rw [hbr, bestTrial_r, ← hbs, ← hbe, hexact.1, hexact.2, hscore]
      have : k = (⟨i, i + query.length, 100⟩ : FMatch) := by
        cases k
        simp_all
      rw [this]
      exact rankLE_refl _
    · -- strict superset: impossible
      exfalso
      have hstrict : query.length < k.e - k.s := by
        rcases Nat.lt_or_ge k.s i with h | h
        · omega
        · have : k.s = i := by omega
          rcases Nat.lt_or_ge (i + query.length) k.e with h2 | h2
          · omega
          · exact absurd (And.intro this (by omega)) hexact
      -- where did the best trial come from?
      rcases pickBest_mem (gridTrials ic query doc f c)
          (mkTrial ic query doc c.s c.e c.s c.e) with hseed | hgrid
      · -- the seed is the candidate's own length-L window: not a strict superset
        have : k.e - k.s = query.length := by
          rw [hbs, hbe]
          unfold bestTrial
          rw [hseed]
          show c.e - c.s = query.length
          rw [hcs, hce]
          omega
        omega
      · rcases gridTrials_elim hgrid with ⟨ns, ne, hbt, hlt, hN, hnsA, hneA⟩
        have hbs2 : (bestTrial ic query doc f c).s = ns := by
          unfold bestTrial
          rw [hbt]
          rfl
        have hbe2 : (bestTrial ic query doc f c).e = ne := by
          unfold bestTrial
          rw [hbt]
          rfl
        rw [around_mem_iff] at hnsA hneA
        rw [hcs] at hnsA
        rw [hce] at hneA
        -- the exact window is reachable in the same grid
        have hiA : i ∈ around c.s f := by
          rw [around_mem_iff, hcs]
          constructor
          · have : ns ≤ i := by rw [← hbs2, ← hbs]; exact hks
            omega
          · have : i + query.length ≤ ne := by rw [← hbe2, ← hbe]; exact hke
            omega
        have hiLA : i + query.length ∈ around c.e f := by
          rw [around_mem_iff, hce]
          constructor
          · have : ns ≤ i := by rw [← hbs2, ← hbs]; exact hks
            omega
          · have : i + query.length ≤ ne := by rw [← hbe2, ← hbe]; exact hke
            omega
        have htE : mkTrial ic query doc c.s c.e i (i + query.length) ∈
            gridTrials ic query doc f c :=
          gridTrials_intro hiA hiLA (by omega) hwin
        have hnot := pickBest_spec (gridTrials ic query doc f c)
          (mkTrial ic query doc c.s c.e c.s c.e)
          (mkTrial ic query doc c.s c.e i (i + query.length)) (Or.inr htE)
        have htEr : (mkTrial ic query doc c.s c.e i (i + query.length)).r = 100 := by
          rw [trial_r_eq, hscore]
        -- hence the chosen trial also scores 100
        have hble : (bestTrial ic query doc f c).r ≤ 100 := by
          rw [bestTrial_r]
          exact nscore_le_100 ..
        have hbge : 100 ≤ (bestTrial ic query doc f c).r := by
          by_contra hcon
          apply hnot
          unfold preferT
          left
          show (bestTrial ic query doc f c).r <
            (mkTrial ic query doc c.s c.e i (i + query.length)).r
          omega
        have hb100 : (bestTrial ic query doc f c).r = 100 := by omega
        -- the chosen window's text then equals the query text under
        -- normalization, so it has the query text's length
        have hwEq : normTxt ic (joinTokens query) =
            normTxt ic (windowTxt doc k.s k.e) := by
          apply nscore_eq_100 ic
          rw [hbs, hbe, ← bestTrial_r, hb100]
        have hlen1 : (joinTokens query).data.length =
            (windowTxt doc k.s k.e).data.length :=
          normTxt_data_length_eq hwEq
        have hwEq2 : normTxt ic (windowTxt doc i (i + query.length)) =
            normTxt ic (joinTokens query) := by
          unfold windowTxt
          have hL : i + query.length - i = query.length := by omega
          rw [hL, normTxt_join, heq, ← normTxt_join]
        have hlen2 : (windowTxt doc i (i + query.length)).data.length =
            (joinTokens query).data.length :=
          normTxt_data_length_eq hwEq2
        have hkeN : k.e ≤ doc.length := by
          rw [hbe, hbe2]
          exact hN
        have hlt2 : (windowTxt doc i (i + query.length)).data.length <
            (windowTxt doc k.s k.e).data.length :=
          windowTxt_len_lt hks hke hstrict hqpos hkeN
        omega

/-! ## Remaining supporting lemmas -/

theorem scanDoc_nil_doc (ic : Bool) (minr1 : Nat) (query : List String)
    (hq : query ≠ []) : scanDoc ic minr1 query [] = [] := by
  unfold scanDoc
  rw [if_pos]
  right
  simpa using List.length_pos.mpr hq

theorem matchDoc_append (r1 r2 : List Rule) (doc : List String) :
    matchDoc (r1 ++ r2) doc = matchDoc r1 doc ++ matchDoc r2 doc := by
  unfold matchDoc
  rw [List.flatMap_append]

theorem searchQuery_pairwise (cfg : RawConfig) (query doc : List String) :
    (searchQuery cfg query doc).Pairwise rankLE := by
  by_cases hq : query = []
  · unfold searchQuery
    rw [if_pos hq]
    exact List.Pairwise.nil
  · rw [searchQuery_eq hq]
    exact rankMatches_pairwise _

/-- The search depends on the configured flex only through its clamped
value. -/
theorem searchQuery_flex_congr (ic : Bool) (m1 m2 : Nat) (f1 f2 : Int) (t : Nat)
    (query doc : List String)
    (h : (calcFlex f1 query.length).1 = (calcFlex f2 query.length).1) :
    searchQuery ⟨ic, m1, m2, f1, t⟩ query doc =
      searchQuery ⟨ic, m1, m2, f2, t⟩ query doc := by
  unfold searchQuery
  dsimp only
  rw [h]

/-- Exact-match emission through the whole per-query pipeline. -/
theorem searchQuery_exact (cfg : RawConfig) (query doc : List String) (i : Nat)
    (hq : query ≠ []) (hqtxt : (joinTokens query).data ≠ [])
    (h1 : cfg.min_r1 ≤ 100) (h2 : cfg.min_r2 ≤ 100) (h3 : cfg.thresh ≤ 100)
    (hwin : i + query.length ≤ doc.length)
    (heq : ((doc.drop i).take query.length).map (normTxt cfg.ignore_case) =
      query.map (normTxt cfg.ignore_case)) :
    (⟨i, i + query.length, 100⟩ : FMatch) ∈ searchQuery cfg query doc := by
  rw [searchQuery_eq hq]
  apply (rankMatches_mem_iff _ _).mpr
  constructor
  · exact exact_in_raw cfg.ignore_case _ _ cfg.thresh _ query doc i hq hqtxt
      (effThresholds_fst_le_100 _ h1 h2) h3 hwin heq
  · exact exact_not_subsumed cfg.ignore_case _ _ cfg.thresh _ query doc i hq hqtxt
      hwin heq

/-! ## The claims -/

/-- C1: among the Boundary Optimizer's boundary-shift combinations, the chosen
one is maximal for the order: higher ratio first; among combinations whose
(rounded, integer) ratios tie, smallest total shift `|ds| + |de|` first; among
equal-ratio, equal-shift combinations, the longer window (more tokens) wins.
In particular, when two combinations tie on ratio the optimizer prefers the
smaller total shift, and on a further tie the longer window — longer windows
are preferred over (tied-after-rounding) shorter ones. -/
theorem claim_C1_optimizer_tiebreak (ic : Bool) (query doc : List String)
    (flex : Nat) (c : Candidate) (t : Trial)
    (ht : t ∈ gridTrials ic query doc flex c) :
    t.r ≤ (bestTrial ic query doc flex c).r ∧
      (t.r = (bestTrial ic query doc flex c).r →
        (bestTrial ic query doc flex c).shift ≤ t.shift) ∧
      (t.r = (bestTrial ic query doc flex c).r →
        t.shift = (bestTrial ic query doc flex c).shift →
          t.e - t.s ≤ (bestTrial ic query doc flex c).e -
            (bestTrial ic query doc flex c).s) := by
  have h := pickBest_spec (gridTrials ic query doc flex c)
    (mkTrial ic query doc c.s c.e c.s c.e) t (Or.inr ht)
  unfold bestTrial
  unfold preferT at h
  omega

theorem claim_C1_witness :
    (mkTrial true ["ab"] ["x", "ab"] 0 1 1 2).r ≤
        (bestTrial true ["ab"] ["x", "ab"] 1 ⟨0, 1, 50⟩).r ∧
      ((mkTrial true ["ab"] ["x", "ab"] 0 1 1 2).r =
          (bestTrial true ["ab"] ["x", "ab"] 1 ⟨0, 1, 50⟩).r →
        (bestTrial true ["ab"] ["x", "ab"] 1 ⟨0, 1, 50⟩).shift ≤
          (mkTrial true ["ab"] ["x", "ab"] 0 1 1 2).shift) ∧
      ((mkTrial true ["ab"] ["x", "ab"] 0 1 1 2).r =
          (bestTrial true ["ab"] ["x", "ab"] 1 ⟨0, 1, 50⟩).r →
        (mkTrial true ["ab"] ["x", "ab"] 0 1 1 2).shift =
            (bestTrial true ["ab"] ["x", "ab"] 1 ⟨0, 1, 50⟩).shift →
          (mkTrial true ["ab"] ["x", "ab"] 0 1 1 2).e -
              (mkTrial true ["ab"] ["x", "ab"] 0 1 1 2).s ≤
            (bestTrial true ["ab"] ["x", "ab"] 1 ⟨0, 1, 50⟩).e -
              (bestTrial true ["ab"] ["x", "ab"] 1 ⟨0, 1, 50⟩).s) :=
  claim_C1_optimizer_tiebreak true ["ab"] ["x", "ab"] 1 ⟨0, 1, 50⟩
    (mkTrial true ["ab"] ["x", "ab"] 0 1 1 2) (by decide)

/-- C2: a Candidate whose coarse-scan ratio is at least `thresh` skips
optimization entirely: the Boundary Optimizer emits exactly the Candidate's
window with its coarse ratio. -/
theorem claim_C2_thresh_fast_path (ic : Bool) (minr2 thresh : Nat)
    (query doc : List String) (flex : Nat) (c : Candidate) (h : thresh ≤ c.r) :
    optimizeCand ic minr2 thresh query doc flex c = some ⟨c.s, c.e, c.r⟩ :=
  optimizeCand_fast h

theorem claim_C2_witness :
    optimizeCand true 75 80 ["ab"] ["ab"] 1 ⟨0, 1, 90⟩ = some ⟨0, 1, 90⟩ :=
  claim_C2_thresh_fast_path true 75 80 ["ab"] ["ab"] 1 ⟨0, 1, 90⟩ (by decide)

/-- C3: registration never fails on an out-of-range `flex`: the effective
flex is the configured value clamped into `[0, query length]`, a warning is
recorded exactly when the configured value was out of range (e.g. `flex = -5`
on a 3-token query yields effective flex 0 with a warning), and the search
proceeds exactly as with the corrected value. -/
theorem claim_C3_flex_clamping (raw : Int) (query doc : List String)
    (cfg : RawConfig) :
    (calcFlex raw query.length).1 ≤ query.length ∧
      ((calcFlex raw query.length).1 : Int) = max 0 (min raw (query.length : Int)) ∧
      (calcFlex raw query.length).2 =
        (decide (raw < 0) || decide ((query.length : Int) < raw)) ∧
      calcFlex (-5) 3 = (0, true) ∧
      searchQuery ⟨cfg.ignore_case, cfg.min_r1, cfg.min_r2, raw, cfg.thresh⟩
          query doc =
        searchQuery ⟨cfg.ignore_case, cfg.min_r1, cfg.min_r2,
          ((calcFlex raw query.length).1 : Int), cfg.thresh⟩ query doc := by
  refine ⟨calcFlex_le raw query.length, calcFlex_clamp raw query.length,
    calcFlex_warn raw query.length, by decide, ?_⟩
  apply searchQuery_flex_congr
  rw [calcFlex_idem raw query.length]

/-- C4: for one query's matches, the Ranker/Deduplicator orders output by
ascending start, then descending window length (for equal starts, descending
end), then descending ratio, and keeps exactly the matches with no
rank-earlier subsuming match; across queries the engine concatenates each
query's results independently, so matches of different queries never
deduplicate each other. -/
theorem claim_C4_ranker_dedup (ms : List FMatch) (m : FMatch) (r1 r2 : List Rule)
    (doc : List String) :
    (m ∈ rankMatches ms ↔ m ∈ ms ∧ ∀ k ∈ ms, subsumes k m → rankLE m k) ∧
      (rankMatches ms).Pairwise rankLE ∧
      matchDoc (r1 ++ r2) doc = matchDoc r1 doc ++ matchDoc r2 doc :=
  ⟨rankMatches_mem_iff ms m, rankMatches_pairwise ms, matchDoc_append r1 r2 doc⟩

/-- C5: a registered query whose tokens agree with a document window of the
same length under the configured case normalization is emitted by `search`
as a Match over exactly that window with final ratio 100 (with the
configuration's ratio fields in their documented 0–100 range, and the
query non-empty with non-empty text). -/
theorem claim_C5_exact_match (cfg : RawConfig) (query doc : List String) (i : Nat)
    (hq : query ≠ []) (hqtxt : (joinTokens query).data ≠ [])
    (h1 : cfg.min_r1 ≤ 100) (h2 : cfg.min_r2 ≤ 100) (h3 : cfg.thresh ≤ 100)
    (hwin : i + query.length ≤ doc.length)
    (heq : ((doc.drop i).take query.length).map (normTxt cfg.ignore_case) =
      query.map (normTxt cfg.ignore_case)) :
    (⟨i, i + query.length, 100⟩ : FMatch) ∈ searchQuery cfg query doc :=
  searchQuery_exact cfg query doc i hq hqtxt h1 h2 h3 hwin heq

theorem claim_C5_witness :
    (⟨0, 1, 100⟩ : FMatch) ∈ searchQuery ⟨true, 50, 75, 1, 100⟩ ["ab"] ["ab"] :=
  claim_C5_exact_match ⟨true, 50, 75, 1, 100⟩ ["ab"] ["ab"] 0 (by decide) (by decide)
    (by decide) (by decide) (by decide) (by decide) (by decide)

/-- C6: case-sensitive scoring (`ignore_case = false`) never yields a higher
ratio than case-insensitive scoring (`ignore_case = true`), for any pair of
strings. -/
theorem claim_C6_case_sensitivity (a b : String) :
    nscore false a b ≤ nscore true a b :=
  simpleScore_lower_ge a b

/-- C7: searching an empty document returns an empty Match sequence for any
query (in particular any non-empty one), and searching with an empty query
returns an empty Match sequence on any document; neither is an error (the
search function is total). -/
theorem claim_C7_empty_inputs (cfg : RawConfig) (query doc : List String) :
    searchQuery cfg query [] = [] ∧ searchQuery cfg [] doc = [] := by
  constructor
  · by_cases hq : query = []
    · unfold searchQuery
      rw [if_pos hq]
    · rw [searchQuery_eq hq, scanDoc_nil_doc _ _ query hq]
      rfl
  · unfold searchQuery
    rw [if_pos rfl]

/-- C8 counterexample: with `thresh = 0` (allowed by the spec's 0–100 range)
the fast path emits a match whose ratio 50 is below `min_r2 = 75`, so the
claimed invariant `final ratio ≥ min_r2` fails as stated. -/
theorem claim_C8_counterexample :
    (⟨0, 1, 50⟩ : FMatch) ∈ searchQuery ⟨true, 50, 75, 1, 0⟩ ["ab"] ["ax"] ∧
      (50 : Nat) < (⟨true, 50, 75, 1, 0⟩ : RawConfig).min_r2 := by
  decide

/-- C8 (amended): every Match emitted by the pipeline satisfies
`0 ≤ start < end ≤ len(document)`; and provided `thresh ≥ min_r2` (true of
the default `thresh = 100`), its final ratio is at least `min_r2`. -/
theorem claim_C8_match_invariants (cfg : RawConfig) (query doc : List String)
    (m : FMatch) (hm : m ∈ searchQuery cfg query doc) :
    (m.s < m.e ∧ m.e ≤ doc.length) ∧
      (cfg.min_r2 ≤ cfg.thresh → cfg.min_r2 ≤ m.r) :=
  searchQuery_bounds hm

theorem claim_C8_witness :
    (((0 : Nat) < 1 ∧ (1 : Nat) ≤ 1) ∧ ((75 : Nat) ≤ 100 → (75 : Nat) ≤ 100)) :=
  claim_C8_match_invariants ⟨true, 50, 75, 1, 100⟩ ["ab"] ["ab"] ⟨0, 1, 100⟩
    (by decide)

/-- C9: `search` is deterministic and idempotent — as a pure function of the
registered rules, configuration and document it returns the same ordered
Match sequence on every invocation, and each query's matches are emitted in
the ranking order (no unordered iteration). -/
theorem claim_C9_determinism (rules : List Rule) (doc : List String) :
    matchDoc rules doc = matchDoc rules doc ∧
      ∀ (cfg : RawConfig) (query : List String),
        (searchQuery cfg query doc).Pairwise rankLE :=
  ⟨rfl, fun cfg query => searchQuery_pairwise cfg query doc⟩

/-- C10: with effective `flex = 0`, the configured `min_r1` is ignored (the
coarse scan runs at `min_r2`), `thresh` has no effect on the result, and
every emitted window already met `min_r2` during the initial scan (it is one
of the coarse-scan candidates, unchanged). -/
theorem claim_C10_flex0 (ic : Bool) (m1 m2 : Nat) (fx : Int) (t1 t2 : Nat)
    (query doc : List String) (hf : (calcFlex fx query.length).1 = 0) :
    searchQuery ⟨ic, m1, m2, fx, t1⟩ query doc =
        searchQuery ⟨ic, m1, m2, fx, t2⟩ query doc ∧
      searchQuery ⟨ic, m1, m2, fx, t1⟩ query doc =
        rankMatches ((scanDoc ic m2 query doc).map fun c => ⟨c.s, c.e, c.r⟩) ∧
      ∀ m ∈ searchQuery ⟨ic, m1, m2, fx, t1⟩ query doc,
        m2 ≤ m.r ∧ (⟨m.s, m.e, m.r⟩ : Candidate) ∈ scanDoc ic m2 query doc := by
  have e1 := searchQuery_flex0 ic m1 m2 fx t1 query doc hf
  have e2 := searchQuery_flex0 ic m1 m2 fx t2 query doc hf
  refine ⟨e1.trans e2.symm, e1, ?_⟩
  intro m hm
  rw [e1] at hm
  have hmem := ((rankMatches_mem_iff _ m).mp hm).1
  rcases List.mem_map.mp hmem with ⟨c, hcscan, hcm⟩
  have hceta : (⟨m.s, m.e, m.r⟩ : Candidate) = c := by
    cases c
    cases m
    simp only [FMatch.mk.injEq] at hcm
    simp only [Candidate.mk.injEq]
    omega
  have hmr : m.r = c.r := by rw [← hcm]
  rcases scanDoc_mem_elim hcscan with ⟨j, _, _, _, hm2⟩
  constructor
  · omega
  · rw [hceta]
    exact hcscan

theorem claim_C10_witness :
    searchQuery ⟨true, 50, 75, 0, 100⟩ ["ab"] ["ab"] =
        searchQuery ⟨true, 50, 75, 0, 0⟩ ["ab"] ["ab"] ∧
      searchQuery ⟨true, 50, 75, 0, 100⟩ ["ab"] ["ab"] =
        rankMatches ((scanDoc true 75 ["ab"] ["ab"]).map fun c => ⟨c.s, c.e, c.r⟩) ∧
      ∀ m ∈ searchQuery ⟨true, 50, 75, 0, 100⟩ ["ab"] ["ab"],
        75 ≤ m.r ∧ (⟨m.s, m.e, m.r⟩ : Candidate) ∈ scanDoc true 75 ["ab"] ["ab"] :=
  claim_C10_flex0 true 50 75 0 100 0 ["ab"] ["ab"] (by decide)

end Spaczz
